import Mathlib

/-!
Shallow embedding of the `myway` Wayland compositor core, with theorems
checking the natural-language specification against it.

Conventions:
- Rust `u32` protocol words are modelled as `Nat` (with explicit `% 2^32`
  where wraparound matters), `i32` as `Int` with range side conditions.
- `Vec<Option<AnyObject>>` is a `List (Option α)` over an abstract element
  type `α`; raw file descriptors are `Int`.
- Fallible Rust functions returning `io::Result` are modelled with
  `Except String`.
-/

namespace Myway

/-- Size of a protocol word in bytes (Rust `WORD_SIZE`). -/
def WORD_SIZE : Nat := 4

/-- Capacity of each byte buffer (Rust `CAP_BYTES` in `client/mod.rs`). -/
def CAP_BYTES : Nat := 4096

/-- Capacity in words (Rust `CAP_WORDS`). -/
def CAP_WORDS : Nat := CAP_BYTES / WORD_SIZE

/-- Capacity of the file-descriptor buffers (Rust `CAP_FDS`). -/
def CAP_FDS : Nat := 8

/-! ## Object map (`src/object_map.rs`) -/

/-- Duplicate-id scan of `Objects::get_many_mut`: the nested loop errors as
soon as some id equals an earlier one, which happens iff some id recurs later
in the list. -/
def hasDup : List Nat → Bool
  | [] => false
  | id :: rest => rest.contains id || hasDup rest

/-- Accumulation of `new_len` in `Objects::get_many_mut`: starts at the
current vector length and takes `max` with `id + 1` for every requested id. -/
def newLen (len : Nat) (ids : List Nat) : Nat :=
  ids.foldl (fun m id => max m (id + 1)) len

/-- Rust `Vec::resize_with(n, || None)`: truncate to `n` if shorter, else pad
with `none`. -/
def resizeWith (vec : List (Option α)) (n : Nat) : List (Option α) :=
  if n ≤ vec.length then vec.take n else vec ++ List.replicate (n - vec.length) none

/-- Entry construction (`Entry::new`): an entry records the requested id and
whether the slot at that id is occupied (`slot.is_some()`). -/
def entryOf (vec : List (Option α)) (id : Nat) : Nat × Bool :=
  (id, (vec.getD id none).isSome)

/-- Model of `Objects::get_many_mut`: reject duplicate ids, grow the backing
vector so that every id is in range, and return one entry per id. Returns the
grown vector together with the entry array. -/
def getManyMut (vec : List (Option α)) (ids : List Nat) :
    Except String (List (Option α) × List (Nat × Bool)) :=
  if hasDup ids then
    .error "requested id multiple times"
  else
    let n := newLen vec.length ids
    let vec2 := resizeWith vec n
    .ok (vec2, ids.map (entryOf vec2))

/-- Model of `Objects::dispatch_request`: look the target id up in the backing
vector; a present object runs its handler (abstract here), an
existent-but-empty slot is silently ignored, a missing slot is an error. The
handler may mutate the whole table and the send half, so it receives and
returns both. -/
def dispatchRequest (handler : α → List (Option α) → σ → Except String (List (Option α) × σ))
    (vec : List (Option α)) (send : σ) (id : Nat) :
    Except String (List (Option α) × σ) :=
  match vec.get? id with
  | some (some obj) => handler obj vec send
  | some none => .ok (vec, send)
  | none => .error "object does not exist"

/-! Lemmas about the object map. -/

theorem hasDup_eq_false_iff_nodup (ids : List Nat) : hasDup ids = false ↔ ids.Nodup := by
  induction ids with
  | nil => simp [hasDup]
  | cons id rest ih =>
    simp [hasDup, ih, List.nodup_cons]

theorem le_newLen (len : Nat) (ids : List Nat) : len ≤ newLen len ids := by
  induction ids generalizing len with
  | nil => simp [newLen]
  | cons id rest ih =>
    simp only [newLen, List.foldl_cons] at *
    exact le_trans (le_max_left _ _) (ih (max len (id + 1)))

theorem lt_newLen_of_mem (len : Nat) (ids : List Nat) (id : Nat) (h : id ∈ ids) :
    id < newLen len ids := by
  induction ids generalizing len with
  | nil => cases h
  | cons a rest ih =>
    simp only [newLen, List.foldl_cons]
    rcases List.mem_cons.mp h with h | h
    · subst h
      have h2 := le_newLen (max len (id + 1)) rest
      unfold newLen at h2
      omega
    · exact ih (max len (a + 1)) h

theorem resizeWith_length (vec : List (Option α)) (n : Nat) (h : vec.length ≤ n) :
    (resizeWith vec n).length = n := by
  unfold resizeWith
  split
  · simp; omega
  · simp; omega

theorem resizeWith_get?_lt (vec : List (Option α)) (n : Nat) (hn : vec.length ≤ n)
    (i : Nat) (hi : i < vec.length) : (resizeWith vec n).get? i = vec.get? i := by
  unfold resizeWith
  split
  · have : n = vec.length := le_antisymm (by assumption) hn
    simp [this]
  · rw [List.get?_append hi]

theorem resizeWith_get?_ge (vec : List (Option α)) (n : Nat) (i : Nat)
    (h1 : vec.length ≤ i) (h2 : i < n) : (resizeWith vec n).get? i = some none := by
  unfold resizeWith
  split
  · omega
  · rw [List.get?_append_right h1]
    rw [List.get?_eq_get (by simp; omega)]
    simp

/-- C1. `Objects::get_many_mut` errors iff some id is requested twice;
otherwise it grows the backing vector (new slots empty, never shrinking) so
every id is in range and returns one entry per requested id, each carrying its
id and occupied iff that id's slot is non-empty. -/
theorem getManyMut_correct (vec : List (Option α)) (ids : List Nat) :
    (¬ ids.Nodup → ∃ e, getManyMut vec ids = .error e) ∧
    (ids.Nodup → ∃ vec2 entries, getManyMut vec ids = .ok (vec2, entries) ∧
      vec.length ≤ vec2.length ∧
      (∀ i, i < vec.length → vec2.get? i = vec.get? i) ∧
      (∀ i, vec.length ≤ i → i < vec2.length → vec2.get? i = some none) ∧
      (∀ id ∈ ids, id < vec2.length) ∧
      entries.length = ids.length ∧
      (∀ i (h1 : i < ids.length) (h2 : i < entries.length),
        (entries.get ⟨i, h2⟩).1 = ids.get ⟨i, h1⟩ ∧
        ((entries.get ⟨i, h2⟩).2 = true ↔ vec2.getD (ids.get ⟨i, h1⟩) none ≠ none))) := by
  constructor
  · intro hnd
    have hd : hasDup ids = true := by
      rcases Bool.eq_false_or_eq_true (hasDup ids) with h | h
      · exact h
      · exact absurd ((hasDup_eq_false_iff_nodup ids).mp h) hnd
    exact ⟨"requested id multiple times", by simp [getManyMut, hd]⟩
  · intro hnd
    have hd : hasDup ids = false := (hasDup_eq_false_iff_nodup ids).mpr hnd
    have hlen : vec.length ≤ newLen vec.length ids := le_newLen _ _
    have hrl : (resizeWith vec (newLen vec.length ids)).length = newLen vec.length ids :=
      resizeWith_length _ _ hlen
    refine ⟨resizeWith vec (newLen vec.length ids),
      ids.map (entryOf (resizeWith vec (newLen vec.length ids))), by simp [getManyMut, hd],
      ?_, ?_, ?_, ?_, ?_, ?_⟩
    · rw [hrl]; exact hlen
    · intro i hi; exact resizeWith_get?_lt vec _ hlen i hi
    · intro i h1 h2; rw [hrl] at h2; exact resizeWith_get?_ge vec _ i h1 h2
    · intro id hid; rw [hrl]; exact lt_newLen_of_mem _ _ _ hid
    · simp
    · intro i h1 h2
      have hget : (ids.map (entryOf (resizeWith vec (newLen vec.length ids)))).get ⟨i, h2⟩ =
          entryOf (resizeWith vec (newLen vec.length ids)) (ids.get ⟨i, h1⟩) := by
        simp [List.get_map]
      rw [hget]
      refine ⟨rfl, ?_⟩
      simp only [entryOf, Option.isSome_iff_ne_none]

/-- Witness for C1 at concrete inputs: ids `[2, 1]` on a one-slot table. -/
theorem getManyMut_correct_witness :
    ∃ vec2 entries, getManyMut [some 0] [2, 1] = .ok (vec2, entries) ∧
      ([some (0 : Nat)] : List (Option Nat)).length ≤ vec2.length ∧
      (∀ i, i < ([some (0 : Nat)] : List (Option Nat)).length →
        vec2.get? i = ([some (0 : Nat)] : List (Option Nat)).get? i) ∧
      (∀ i, ([some (0 : Nat)] : List (Option Nat)).length ≤ i → i < vec2.length →
        vec2.get? i = some none) ∧
      (∀ id ∈ [2, 1], id < vec2.length) ∧
      entries.length = ([2, 1] : List Nat).length ∧
      (∀ i (h1 : i < ([2, 1] : List Nat).length) (h2 : i < entries.length),
        (entries.get ⟨i, h2⟩).1 = ([2, 1] : List Nat).get ⟨i, h1⟩ ∧
        ((entries.get ⟨i, h2⟩).2 = true ↔
          vec2.getD (([2, 1] : List Nat).get ⟨i, h1⟩) none ≠ none)) :=
  (getManyMut_correct [some 0] [2, 1]).2 (by decide)

/-- C8. `Objects::dispatch_request` on an existent-but-empty slot is a silent
no-op leaving the table and the send half unchanged; on an id at or past the
backing array length it returns an object-does-not-exist error, for every
handler. -/
theorem dispatchRequest_vacant_noop_and_missing_err
    (handler : α → List (Option α) → σ → Except String (List (Option α) × σ))
    (vec : List (Option α)) (send : σ) (id : Nat) :
    (vec.get? id = some none → dispatchRequest handler vec send id = .ok (vec, send)) ∧
    (vec.length ≤ id → ∃ e, dispatchRequest handler vec send id = .error e) := by
  constructor
  · intro h
    rw [List.get?_eq_getElem?] at h
    simp [dispatchRequest, h]
  · intro h
    have hn : vec[id]? = none := by
      rw [← List.get?_eq_getElem?]
      exact List.get?_eq_none.mpr h
    exact ⟨"object does not exist", by simp [dispatchRequest, hn]⟩

/-- Witness for C8: a two-slot table whose slot 1 is empty, with a handler
that always errors; dispatch to id 1 is a no-op, dispatch to id 5 errors. -/
theorem dispatchRequest_vacant_noop_and_missing_err_witness :
    (dispatchRequest (fun (_ : Nat) _ (_ : Unit) => .error "handler") [some 7, none] () 1 =
      .ok ([some 7, none], ())) ∧
    (∃ e, dispatchRequest (fun (_ : Nat) _ (_ : Unit) => .error "handler") [some 7, none] () 5 =
      .error e) :=
  ⟨(dispatchRequest_vacant_noop_and_missing_err _ [some 7, none] () 1).1 (by decide),
   (dispatchRequest_vacant_noop_and_missing_err _ [some 7, none] () 5).2 (by decide)⟩

/-! ## Received messages and fd queue (`src/client/recv.rs`) -/

/-- Fd buffer of a half (`FdBuffer` in `client/mod.rs`): raw fds with a read
and a write index counted in entries. -/
structure FdBuffer where
  buf : List Int
  read_idx : Nat
  write_idx : Nat
deriving Repr, DecidableEq

/-- Model of `RecvMessage::take_fd`, faithfully including its guard: the
source errors when `read_idx < write_idx` and otherwise returns
`buf[read_idx]` and increments `read_idx`. Out-of-range indexing (a panic in
Rust) is modelled with the buffer's `-1` fill value as default. -/
def take_fd (fds : FdBuffer) : Except String (Int × FdBuffer) :=
  if fds.read_idx < fds.write_idx then
    .error "too few file descriptors"
  else
    .ok (fds.buf.getD fds.read_idx (-1), { fds with read_idx := fds.read_idx + 1 })

/-- C4 (code bug). `take_fd`'s emptiness check is inverted: on a non-empty fd
queue (read index 0, write index 1, fd 7 queued) it returns the
too-few-file-descriptors error instead of fd 7, and on an empty queue (read
index = write index = 0) it succeeds, handing out the buffer's `-1` fill
value and advancing the read index. -/
theorem take_fd_check_inverted :
    take_fd ⟨[7, -1], 0, 1⟩ = .error "too few file descriptors" ∧
    take_fd ⟨[-1, -1], 0, 0⟩ = .ok (-1, ⟨[-1, -1], 1, 0⟩) := by
  constructor
  · rfl
  · rfl

/-! ## Schema reader (`myway-protogen/src/build_tree.rs`) -/

/-- Arg type descriptors of the schema model (`ArgType` in
`myway-protogen/src/types.rs`); enum and interface attributes are reduced to
their presence, which is all `build_message` inspects. -/
inductive ArgType where
  | int : ArgType
  | uint : Bool → ArgType
  | fixed : ArgType
  | string : Bool → ArgType
  | object : Bool → Bool → ArgType
  | new_id : Bool → ArgType
  | array : ArgType
  | fd : ArgType
deriving Repr, DecidableEq

/-- Schema arg (`Arg` in `myway-protogen/src/types.rs`), summaries dropped.
For `string` and `object` the first Bool is `nullable`; for `new_id` and
`object` a Bool records whether an `interface` attribute is present. -/
structure SchemaArg where
  name : String
  ty : ArgType
deriving Repr, DecidableEq

/-- Arg-list construction loop of `build_message`: before every parsed
`new_id` arg without an interface attribute it pushes a synthetic
`interface` arg and a synthetic `version` arg — both built with
`ArgType::String { nullable: false }` in the source. -/
def build_message_args : List SchemaArg → List SchemaArg
  | [] => []
  | arg :: rest =>
    (if arg.ty = ArgType.new_id false then
      [⟨"interface", ArgType.string false⟩, ⟨"version", ArgType.string false⟩, arg]
    else [arg]) ++ build_message_args rest

/-- C5 (code bug). On a message with a single interface-less `new_id` arg the
reader inserts `interface : string` and `version` immediately before it, but
the synthetic `version` arg is built with type `string` (non-nullable), not
`uint` as the spec and the code's own wayland-scanner comment require. -/
theorem build_message_version_arg_type :
    build_message_args [⟨"id", ArgType.new_id false⟩] =
      [⟨"interface", ArgType.string false⟩, ⟨"version", ArgType.string false⟩,
        ⟨"id", ArgType.new_id false⟩] ∧
    (ArgType.string false ≠ ArgType.uint false) := by
  constructor
  · rfl
  · decide

/-! ## Wire argument codec (`src/protocol/args.rs`, `src/protocol/event.rs`,
`src/protocol/id.rs`, `src/protocol/fixed.rs`)

Decoders work on the list of argument words remaining in a `RecvMessage` and
return the decoded value together with the unconsumed words; encoders return
the list of words written into the event. Strings are byte lists (`u8` values
below 256). -/

/-- Model of `RecvMessage::take`: pop one word. -/
def takeWord (ws : List Nat) : Except String (Nat × List Nat) :=
  match ws with
  | w :: rest => .ok (w, rest)
  | [] => .error "too few args"

/-- Model of `RecvMessage::split`: pop `n` words. -/
def splitWords (n : Nat) (ws : List Nat) : Except String (List Nat × List Nat) :=
  if ws.length < n then .error "too few args"
  else .ok (ws.take n, ws.drop n)

/-- Rust `as u32` on an `i32` value: two's-complement reinterpretation. -/
def u32_of_i32 (v : Int) : Nat := (v % (2 ^ 32 : Int)).toNat

/-- Rust `as i32` on a `u32` value: two's-complement reinterpretation. -/
def i32_of_u32 (w : Nat) : Int := if w < 2 ^ 31 then (w : Int) else (w : Int) - 2 ^ 32

/-- Decode impl for `u32`: take one word. -/
def decode_u32 (ws : List Nat) : Except String (Nat × List Nat) := takeWord ws

/-- Decode impl for `i32`: take one word, reinterpret. -/
def decode_i32 (ws : List Nat) : Except String (Int × List Nat) :=
  (takeWord ws).map (fun p => (i32_of_u32 p.1, p.2))

/-- Encode impl for `u32`: one word. -/
def encode_u32 (v : Nat) : List Nat := [v]

/-- Encode impl for `i32`: one word, reinterpreted. -/
def encode_i32 (v : Int) : List Nat := [u32_of_i32 v]

/-- Decode impl for `Fixed`: delegates to `i32` and wraps. -/
def decode_fixed (ws : List Nat) : Except String (Int × List Nat) := decode_i32 ws

/-- Encode impl for `Fixed`: delegates to the wrapped `i32`. -/
def encode_fixed (v : Int) : List Nat := encode_i32 v

/-- Native-byte-order packing of four bytes into one word (the
`read_unaligned::<Word>` / `Word::from_ne_bytes` casts, little-endian). -/
def wordOfBytes (a b c d : Nat) : Nat := a + 256 * b + 65536 * c + 16777216 * d

/-- Inverse view of a word as its four bytes. -/
def bytesOfWord (w : Nat) : List Nat := [w % 256, w / 256 % 256, w / 65536 % 256, w / 16777216 % 256]

/-- Byte view of a word list (the `[Word] → [u8]` reinterpret casts). -/
def bytesOfWords : List Nat → List Nat
  | [] => []
  | w :: ws => bytesOfWord w ++ bytesOfWords ws

/-- Body loop of the `&str` encode impl: full 4-byte words while at least 4
bytes remain, then one final word holding the 0–3 leftover bytes, the NUL
terminator and zero padding. -/
def encodeStrBody : List Nat → List Nat
  | a :: b :: c :: d :: rest => wordOfBytes a b c d :: encodeStrBody rest
  | [] => [0]
  | [a] => [wordOfBytes a 0 0 0]
  | [a, b] => [wordOfBytes a b 0 0]
  | [a, b, c] => [wordOfBytes a b c 0]

/-- Encode impl for `&str`: length word `len + 1` (counting the NUL), then
the padded body. -/
def encode_str (s : List Nat) : List Nat := (s.length + 1) :: encodeStrBody s

/-- Encode impl for `Option<&str>`: null encodes as a single zero length
word. -/
def encode_opt_str : Option (List Nat) → List Nat
  | some s => encode_str s
  | none => [0]

/-- Model of `split_string_common`: take `⌈byteLen/4⌉` words, view as bytes,
keep `byteLen` of them, require a trailing NUL, reject interior NULs, then
run the UTF-8 validity check (`str::from_utf8`, abstracted as the `utf8`
parameter). -/
def split_string_common (utf8 : List Nat → Bool) (byteLen : Nat) (ws : List Nat) :
    Except String (List Nat × List Nat) :=
  match splitWords ((byteLen + WORD_SIZE - 1) / WORD_SIZE) ws with
  | .error e => .error e
  | .ok (argWords, rest) =>
    let body := (bytesOfWords argWords).take byteLen
    if body.getLast? = some 0 then
      let s := body.dropLast
      if s.contains 0 then .error "string argument has interior NULs"
      else if utf8 s then .ok (s, rest)
      else .error "invalid utf-8"
    else .error "string argument not NUL-terminated"

/-- Decode impl for `&str`: zero length is a null-string error. -/
def decode_str (utf8 : List Nat → Bool) (ws : List Nat) :
    Except String (List Nat × List Nat) :=
  match takeWord ws with
  | .error e => .error e
  | .ok (byteLen, rest) =>
    if byteLen = 0 then .error "string argument must not be null"
    else split_string_common utf8 byteLen rest

/-- Decode impl for `Option<&str>`: zero length decodes to null. -/
def decode_opt_str (utf8 : List Nat → Bool) (ws : List Nat) :
    Except String (Option (List Nat) × List Nat) :=
  match takeWord ws with
  | .error e => .error e
  | .ok (byteLen, rest) =>
    if byteLen = 0 then .ok (none, rest)
    else (split_string_common utf8 byteLen rest).map (fun p => (some p.1, p.2))

/-- Modelled from the spec: Rust `core::str::from_utf8` validity (well-formed
UTF-8: ASCII, correctly ranged continuation bytes, no overlong forms, no
surrogates, max U+10FFFF). Used to instantiate the abstract checker. -/
def validUtf8 : List Nat → Bool
  | [] => true
  | b0 :: rest =>
    if b0 < 0x80 then validUtf8 rest
    else if b0 < 0xC2 then false
    else if b0 < 0xE0 then
      match rest with
      | b1 :: rest2 => decide (0x80 ≤ b1 ∧ b1 < 0xC0) && validUtf8 rest2
      | [] => false
    else if b0 < 0xF0 then
      match rest with
      | b1 :: b2 :: rest2 =>
        decide ((if b0 = 0xE0 then 0xA0 else 0x80) ≤ b1 ∧
          b1 < (if b0 = 0xED then 0xA0 else 0xC0) ∧ 0x80 ≤ b2 ∧ b2 < 0xC0) && validUtf8 rest2
      | _ => false
    else if b0 < 0xF5 then
      match rest with
      | b1 :: b2 :: b3 :: rest2 =>
        decide ((if b0 = 0xF0 then 0x90 else 0x80) ≤ b1 ∧
          b1 < (if b0 = 0xF4 then 0x90 else 0xC0) ∧ 0x80 ≤ b2 ∧ b2 < 0xC0 ∧
          0x80 ≤ b3 ∧ b3 < 0xC0) && validUtf8 rest2
      | _ => false
    else false

/-- Encode impl for `&[Word]`: the length word written is `self.len()`, the
number of words, followed by the body. -/
def encode_array (a : List Nat) : List Nat := a.length :: a

/-- Decode impl for `&[Word]`: the received length word is used directly as
the number of words to split off. -/
def decode_array (ws : List Nat) : Except String (List Nat × List Nat) :=
  match takeWord ws with
  | .error e => .error e
  | .ok (wordLen, rest) => splitWords wordLen rest

/-- Encode impl for `Id<T>` (non-zero by construction): one word. -/
def encode_id (n : Nat) : List Nat := [n]

/-- Encode impl for `Option<Id<T>>`: null encodes as zero. -/
def encode_opt_id : Option Nat → List Nat
  | some n => [n]
  | none => [0]

/-- Decode impl for `Id<T>`: take one word, reject zero. -/
def decode_id (ws : List Nat) : Except String (Nat × List Nat) :=
  match takeWord ws with
  | .error e => .error e
  | .ok (w, rest) => if w = 0 then .error "ID may not be null" else .ok (w, rest)

/-- Decode impl for `Option<Id<T>>`: zero decodes to null. -/
def decode_opt_id (ws : List Nat) : Except String (Option Nat × List Nat) :=
  (takeWord ws).map (fun p => ((if p.1 = 0 then none else some p.1), p.2))

/-- C9 (code bug). For the 2-word (8-byte) array `[11, 22]` the encoder emits
length word `2` — the word count, not the byte count `8` — and the decoder
symmetrically consumes as many words as the length word says, so a length
word of `8` (the byte count a conforming Wayland peer would send for this
array) makes it demand 8 words and fail. -/
theorem array_length_word_counts_words :
    encode_array [11, 22] = [2, 11, 22] ∧
    decode_array [2, 11, 22] = .ok ([11, 22], []) ∧
    decode_array [8, 11, 22] = .error "too few args" := by
  exact ⟨rfl, rfl, rfl⟩

/-! Round-trip lemmas for the codec. -/

theorem splitWords_append (xs rest : List Nat) :
    splitWords xs.length (xs ++ rest) = .ok (xs, rest) := by
  unfold splitWords
  rw [if_neg (by simp)]
  rw [List.take_left, List.drop_left]

theorem bytesOfWord_wordOfBytes (a b c d : Nat) (ha : a < 256) (hb : b < 256)
    (hc : c < 256) (hd : d < 256) :
    bytesOfWord (wordOfBytes a b c d) = [a, b, c, d] := by
  simp only [bytesOfWord, wordOfBytes, List.cons.injEq, and_true]
  refine ⟨?_, ?_, ?_, ?_⟩ <;> omega

theorem encodeStrBody_length (s : List Nat) :
    (encodeStrBody s).length = (s.length + 4) / 4 := by
  induction s using encodeStrBody.induct with
  | case1 a b c d rest ih => simp [encodeStrBody, ih]; omega
  | case2 => simp [encodeStrBody]
  | case3 a => simp [encodeStrBody]
  | case4 a b => simp [encodeStrBody]
  | case5 a b c => simp [encodeStrBody]

theorem bytesOfWords_encodeStrBody (s : List Nat) (hB : ∀ b ∈ s, b < 256) :
    bytesOfWords (encodeStrBody s) =
      s ++ 0 :: List.replicate ((4 - (s.length + 1) % 4) % 4) 0 := by
  induction s using encodeStrBody.induct with
  | case1 a b c d rest ih =>
    have ha : a < 256 := hB a (by simp)
    have hb : b < 256 := hB b (by simp)
    have hc : c < 256 := hB c (by simp)
    have hd : d < 256 := hB d (by simp)
    have hrest : ∀ x ∈ rest, x < 256 := fun x hx => hB x (by simp [hx])
    have hmod : ((a :: b :: c :: d :: rest).length + 1) % 4 = (rest.length + 1) % 4 := by
      simp; omega
    simp only [encodeStrBody, bytesOfWords, ih hrest,
      bytesOfWord_wordOfBytes a b c d ha hb hc hd, hmod]
    simp
  | case2 => rfl
  | case3 a =>
    have ha : a < 256 := hB a (by simp)
    simp [encodeStrBody, bytesOfWords,
      bytesOfWord_wordOfBytes a 0 0 0 ha (by omega) (by omega) (by omega)]
  | case4 a b =>
    have ha : a < 256 := hB a (by simp)
    have hb : b < 256 := hB b (by simp)
    simp [encodeStrBody, bytesOfWords,
      bytesOfWord_wordOfBytes a b 0 0 ha hb (by omega) (by omega)]
  | case5 a b c =>
    have ha : a < 256 := hB a (by simp)
    have hb : b < 256 := hB b (by simp)
    have hc : c < 256 := hB c (by simp)
    simp [encodeStrBody, bytesOfWords,
      bytesOfWord_wordOfBytes a b c 0 ha hb hc (by omega)]

theorem take_bytesOfWords_encodeStrBody (s : List Nat) (hB : ∀ b ∈ s, b < 256) :
    (bytesOfWords (encodeStrBody s)).take (s.length + 1) = s ++ [0] := by
  rw [bytesOfWords_encodeStrBody s hB, List.take_append_eq_append_take]
  rw [List.take_of_length_le (by omega)]
  congr 1
  have : s.length + 1 - s.length = 1 := by omega
  rw [this]
  rfl

theorem i32_of_u32_u32_of_i32 (v : Int) (h1 : -(2 ^ 31) ≤ v) (h2 : v < 2 ^ 31) :
    i32_of_u32 (u32_of_i32 v) = v := by
  unfold i32_of_u32 u32_of_i32
  split <;> omega

theorem decode_encode_str_eq (utf8 : List Nat → Bool) (s extra : List Nat)
    (hB : ∀ b ∈ s, b < 256) (h0 : 0 ∉ s) (hu : utf8 s = true) :
    decode_str utf8 (encode_str s ++ extra) = .ok (s, extra) := by
  have hlen : (s.length + 1 + WORD_SIZE - 1) / WORD_SIZE = (encodeStrBody s).length := by
    rw [encodeStrBody_length]
    simp [WORD_SIZE]
  have hcontains : s.contains 0 = false := by
    rcases Bool.eq_false_or_eq_true (s.contains 0) with h | h
    · exact absurd (List.elem_iff.mp h) h0
    · exact h
  simp only [decode_str, encode_str, List.cons_append, takeWord]
  rw [if_neg (by omega)]
  simp only [split_string_common, hlen, splitWords_append]
  rw [take_bytesOfWords_encodeStrBody s hB]
  rw [List.getLast?_concat]
  rw [if_pos rfl]
  simp only [List.dropLast_concat, hcontains, hu]
  rfl

/-- C6 counterexample. The one-byte string `"\0"` is a valid Rust `&str` (NUL
is well-formed UTF-8), the encoder happily encodes it, but the decoder
rejects the result with the interior-NUL error, so decode after encode is not
the identity on every string value. -/
theorem string_with_nul_fails_roundtrip :
    validUtf8 [0] = true ∧
    decode_str validUtf8 (encode_str [0] ++ []) = .error "string argument has interior NULs" ∧
    decode_str validUtf8 (encode_str [0] ++ []) ≠ .ok ([0], []) := by
  refine ⟨rfl, rfl, ?_⟩
  intro h
  rw [show decode_str validUtf8 (encode_str [0] ++ []) =
    .error "string argument has interior NULs" from rfl] at h
  exact Except.noConfusion h

/-- C6 (amended). Decode after encode is the identity, consuming exactly the
encoded words, for every u32, i32 and fixed value, every non-null and
nullable string whose bytes contain no NUL (null included), every word array,
and every non-null and nullable id (null included); the string clause holds
for any UTF-8 validity checker the decoder runs, provided it accepts the
encoded string, and string/array lengths respect the encoder's length
assertion. -/
theorem decode_encode_roundtrip (utf8 : List Nat → Bool) :
    (∀ (v : Nat) (extra : List Nat), decode_u32 (encode_u32 v ++ extra) = .ok (v, extra)) ∧
    (∀ (v : Int) (extra : List Nat), -(2 ^ 31) ≤ v → v < 2 ^ 31 →
      decode_i32 (encode_i32 v ++ extra) = .ok (v, extra)) ∧
    (∀ (v : Int) (extra : List Nat), -(2 ^ 31) ≤ v → v < 2 ^ 31 →
      decode_fixed (encode_fixed v ++ extra) = .ok (v, extra)) ∧
    (∀ (s extra : List Nat), (∀ b ∈ s, b < 256) → 0 ∉ s → utf8 s = true →
      s.length < 65535 → decode_str utf8 (encode_str s ++ extra) = .ok (s, extra)) ∧
    (∀ (o : Option (List Nat)) (extra : List Nat),
      (∀ s ∈ o, (∀ b ∈ s, b < 256) ∧ 0 ∉ s ∧ utf8 s = true ∧ s.length < 65535) →
      decode_opt_str utf8 (encode_opt_str o ++ extra) = .ok (o, extra)) ∧
    (∀ (a extra : List Nat), a.length < 65535 →
      decode_array (encode_array a ++ extra) = .ok (a, extra)) ∧
    (∀ (n : Nat) (extra : List Nat), n ≠ 0 →
      decode_id (encode_id n ++ extra) = .ok (n, extra)) ∧
    (∀ (o : Option Nat) (extra : List Nat), (∀ n ∈ o, n ≠ 0) →
      decode_opt_id (encode_opt_id o ++ extra) = .ok (o, extra)) := by
  refine ⟨?_, ?_, ?_, ?_, ?_, ?_, ?_, ?_⟩
  · intro v extra
    rfl
  · intro v extra h1 h2
    simp only [decode_i32, encode_i32, List.cons_append, List.nil_append, takeWord, Except.map]
    rw [i32_of_u32_u32_of_i32 v h1 h2]
  · intro v extra h1 h2
    simp only [decode_fixed, decode_i32, encode_fixed, encode_i32, List.cons_append,
      List.nil_append, takeWord, Except.map]
    rw [i32_of_u32_u32_of_i32 v h1 h2]
  · intro s extra hB h0 hu _
    exact decode_encode_str_eq utf8 s extra hB h0 hu
  · intro o extra ho
    match o with
    | none => rfl
    | some s =>
      rcases ho s rfl with ⟨hB, h0, hu, _⟩
      simp only [encode_opt_str, decode_opt_str, encode_str, List.cons_append, takeWord]
      rw [if_neg (by omega)]
      have := decode_encode_str_eq utf8 s extra hB h0 hu
      simp only [decode_str, encode_str, List.cons_append, takeWord] at this
      rw [if_neg (by omega)] at this
      rw [this]
      rfl
  · intro a extra _
    simp only [decode_array, encode_array, List.cons_append, takeWord, splitWords_append]
  · intro n extra hn
    simp only [decode_id, encode_id, List.cons_append, List.nil_append, takeWord]
    rw [if_neg hn]
  · intro o extra ho
    match o with
    | none => rfl
    | some n =>
      have hn : n ≠ 0 := ho n rfl
      simp only [decode_opt_id, encode_opt_id, List.cons_append, List.nil_append, takeWord,
        Except.map]
      rw [if_neg hn]

/-- Witness for the amended C6 round-trip at concrete values of every arg
type, with `validUtf8` as the checker and the string `"hi"`. -/
theorem decode_encode_roundtrip_witness :
    decode_u32 (encode_u32 7 ++ [9]) = .ok (7, [9]) ∧
    decode_i32 (encode_i32 (-5) ++ [9]) = .ok (-5, [9]) ∧
    decode_fixed (encode_fixed (-256) ++ [9]) = .ok (-256, [9]) ∧
    decode_str validUtf8 (encode_str [104, 105] ++ [9]) = .ok ([104, 105], [9]) ∧
    decode_opt_str validUtf8 (encode_opt_str none ++ [9]) = .ok (none, [9]) ∧
    decode_array (encode_array [3, 4] ++ [9]) = .ok ([3, 4], [9]) ∧
    decode_id (encode_id 2 ++ [9]) = .ok (2, [9]) ∧
    decode_opt_id (encode_opt_id none ++ [9]) = .ok (none, [9]) := by
  obtain ⟨h1, h2, h3, h4, h5, h6, h7, h8⟩ := decode_encode_roundtrip validUtf8
  exact ⟨h1 7 [9],
    h2 (-5) [9] (by norm_num) (by norm_num),
    h3 (-256) [9] (by norm_num) (by norm_num),
    h4 [104, 105] [9] (by decide) (by decide) (by decide) (by decide),
    h5 none [9] (by simp),
    h6 [3, 4] [9] (by decide),
    h7 2 [9] (by decide),
    h8 none [9] (by simp)⟩

/-! ## Send half (`src/client/send.rs`)

The socket is replaced by an oracle: a finite list of outcomes for the
successive `sendmsg` calls made by `poll_flush` (an exhausted oracle acts as
would-block). Everything else follows the source statement by statement. -/

/-- Byte buffer of a half (`Buffer` in `client/mod.rs`): `CAP_WORDS` words
plus byte-valued read and write indices. -/
structure ByteBuffer where
  buf : List Nat
  read_idx : Nat
  write_idx : Nat
deriving Repr, DecidableEq

/-- Full mutable state of a `SendHalf`: its byte buffer and fd buffer. -/
structure SendState where
  bytes : ByteBuffer
  fds : FdBuffer
deriving Repr, DecidableEq

/-- Outcome of one `sendmsg` call: `n` bytes accepted (all queued fds go with
the first successful send), would-block, or a transport error. -/
inductive NetResult where
  | sent : Nat → NetResult
  | wouldBlock : NetResult
  | fail : String → NetResult
deriving Repr, DecidableEq

/-- Result of `poll_flush`: `Ready(Ok(()))`, `Pending`, or `Ready(Err(e))`. -/
inductive PollFlushResult where
  | readyOk : PollFlushResult
  | pending : PollFlushResult
  | readyErr : String → PollFlushResult
deriving Repr, DecidableEq

/-- Model of `SendHalf::poll_flush`: while data remains, consult the oracle;
`sent n` advances the byte read index by `n` and flushes all queued fds,
would-block yields `Pending`, a failure yields `Ready(Err(e))`. The loop
check is repeated in each arm so that every oracle constructor gets its own
equation. -/
def poll_flush : List NetResult → ByteBuffer → FdBuffer →
    PollFlushResult × ByteBuffer × FdBuffer
  | [], b, f =>
    if b.read_idx < b.write_idx ∨ f.read_idx < f.write_idx then (.pending, b, f)
    else (.readyOk, b, f)
  | .wouldBlock :: _, b, f =>
    if b.read_idx < b.write_idx ∨ f.read_idx < f.write_idx then (.pending, b, f)
    else (.readyOk, b, f)
  | .fail e :: _, b, f =>
    if b.read_idx < b.write_idx ∨ f.read_idx < f.write_idx then (.readyErr e, b, f)
    else (.readyOk, b, f)
  | .sent n :: net2, b, f =>
    if b.read_idx < b.write_idx ∨ f.read_idx < f.write_idx then
      poll_flush net2 { b with read_idx := b.read_idx + n } { f with read_idx := f.write_idx }
    else (.readyOk, b, f)

/-- Validity of a flush oracle: `sendmsg` never reports more bytes accepted
than were passed to it. Under this condition the model matches the source on
every reachable state. -/
def flushValid : List NetResult → ByteBuffer → FdBuffer → Prop
  | .sent n :: net2, b, f =>
    (b.read_idx < b.write_idx ∨ f.read_idx < f.write_idx) →
      (n ≤ b.write_idx - b.read_idx ∧
        flushValid net2 { b with read_idx := b.read_idx + n } { f with read_idx := f.write_idx })
  | _, _, _ => True

/-- Rust slice indexing `l[a..b]`. -/
def listExtract (l : List α) (a b : Nat) : List α := (l.drop a).take (b - a)

/-- Overwrite `xs.length` elements of `l` starting at index `i` (Rust
`copy_from_slice` on `l[i..i+xs.length]`, and `copy_within` when `xs` was
sliced out of `l` first). -/
def setRange (l : List α) (i : Nat) (xs : List α) : List α :=
  l.take i ++ xs ++ l.drop (i + xs.length)

/-- Byte-buffer compaction step of `submit`: move whole words
`read_idx/4 .. write_idx/4` to the front of the buffer (`copy_within`),
shifting both indices down by the moved word offset. `write_idx / WORD_SIZE`
is `div_exact`, exact by the word-alignment invariant on `write_idx`. -/
def compactBytes (b : ByteBuffer) : ByteBuffer :=
  let word_start := b.read_idx / WORD_SIZE
  let word_end := b.write_idx / WORD_SIZE
  { buf := setRange b.buf 0 (listExtract b.buf word_start word_end),
    read_idx := b.read_idx - word_start * WORD_SIZE,
    write_idx := b.write_idx - word_start * WORD_SIZE }

/-- Fd-buffer compaction step of `submit`: move the retained fds to the
front, no alignment concerns. -/
def compactFds (f : FdBuffer) : FdBuffer :=
  { buf := setRange f.buf 0 (listExtract f.buf f.read_idx f.write_idx),
    read_idx := 0,
    write_idx := f.write_idx - f.read_idx }

/-- Second header word as computed by `SendHalf::submit`:
`((bytes_len as u32) << 16) | opcode as u32`. The `opcode` argument carries
the `u16` type invariant (`< 2^16`) at call sites. -/
def headerWord2 (bytes_len opcode : Nat) : Nat :=
  bytes_len % 2 ^ 32 * 2 ^ 16 % 2 ^ 32 ||| opcode

/-- Result of `submit`: the length assertion fired (a panic), an error, or a
reservation `(words_idx, words_goal, fds_idx, fds_goal)` as stored in the
returned `SendMessage`. -/
inductive SubmitResult where
  | assertFailed : SubmitResult
  | err : String → SubmitResult
  | ok : Nat → Nat → Nat → Nat → SubmitResult
deriving Repr, DecidableEq

/-- Space-reservation step of `SendHalf::submit`: when the message does not
fit as-is, run the non-blocking flush (an error there aborts the submission
with the post-flush state) and then compact both buffers to the front. -/
def submitFlushCompact (net : List NetResult) (s : SendState) (bytes_len fds_len : Nat) :
    Except (String × SendState) SendState :=
  if CAP_BYTES - s.bytes.write_idx < bytes_len ∨ CAP_FDS - s.fds.write_idx < fds_len then
    match poll_flush net s.bytes s.fds with
    | (.readyErr e, b, f) => .error (e, SendState.mk b f)
    | (.readyOk, b, f) => .ok (SendState.mk (compactBytes b) (compactFds f))
    | (.pending, b, f) => .ok (SendState.mk (compactBytes b) (compactFds f))
  else .ok s

/-- Model of `SendHalf::submit`: assert the message fits the buffer at all,
flush and compact if it does not fit right now, re-check byte and fd room,
then write the two header words at the current write position (without
advancing the write indices — that is `finish`'s job) and hand out the
reservation. -/
def submit (net : List NetResult) (s : SendState) (object_id opcode args_len fds_len : Nat) :
    SubmitResult × SendState :=
  let bytes_len := (args_len + 2) * WORD_SIZE
  if bytes_len ≤ CAP_BYTES then
    match submitFlushCompact net s bytes_len fds_len with
    | .error (e, s2) => (.err e, s2)
    | .ok s2 =>
      if CAP_BYTES - s2.bytes.write_idx < bytes_len then
        (.err "failed to reserve bytes in buffer", s2)
      else if CAP_FDS - s2.fds.write_idx < fds_len then
        (.err "failed to reserve file descriptors in buffer", s2)
      else
        let write_start := s2.bytes.write_idx / WORD_SIZE
        (.ok (write_start + 2) (write_start + 2 + args_len) s2.fds.write_idx
          (s2.fds.write_idx + fds_len),
         SendState.mk
           { s2.bytes with
             buf := setRange s2.bytes.buf write_start [object_id, headerWord2 bytes_len opcode] }
           s2.fds)
  else (.assertFailed, s)

/-- Model of `SendMessage::write_all` filling the reserved words (fills the
whole arg reservation at once; the in-bounds asserts hold by construction
when exactly `args_len` words are written). -/
def msg_write_all (s : SendState) (words_idx : Nat) (ws : List Nat) : SendState :=
  SendState.mk { s.bytes with buf := setRange s.bytes.buf words_idx ws } s.fds

/-- Model of repeated `SendMessage::write_fd` filling the reserved fd slots. -/
def msg_write_fds (s : SendState) (fds_idx : Nat) (fs : List Int) : SendState :=
  SendState.mk s.bytes { s.fds with buf := setRange s.fds.buf fds_idx fs }

/-- Model of `SendMessage::finish`, verbatim from the source: it sets
`bytes.write_idx = words_goal * WORD_SIZE` and
`fds.write_idx = fds_goal * WORD_SIZE`. -/
def msg_finish (s : SendState) (words_goal fds_goal : Nat) : SendState :=
  SendState.mk { s.bytes with write_idx := words_goal * WORD_SIZE }
    { s.fds with write_idx := fds_goal * WORD_SIZE }

/-- Byte view of the retained (queued but unflushed) region of a byte
buffer: bytes between the read and the write index. -/
def retainedBytes (b : ByteBuffer) : List Nat :=
  ((bytesOfWords b.buf).take b.write_idx).drop b.read_idx

/-- Retained region of an fd buffer: entries between read and write index. -/
def retainedFds (f : FdBuffer) : List Int :=
  (f.buf.take f.write_idx).drop f.read_idx

/-- Model of the `wire_event!` macro in `main.rs`: build
`[id, op, args...]`, then or `(words.len() as u32) << 18` into the second
word. -/
def wire_event (id op : Nat) (args : List Nat) : List Nat :=
  id :: (op ||| (id :: op :: args).length % 2 ^ 32 * 2 ^ 18 % 2 ^ 32) :: args

/-! ## Receive-path length assertion (`src/client/recv.rs`) -/

/-- Assertion at the top of `fill_words`: the requested byte length must be
strictly below the buffer capacity. -/
def fill_words_assert (word_len : Nat) : Bool :=
  decide (word_len * WORD_SIZE < CAP_BYTES)

/-- Outcome of the header validation in `poll_recv` for a message whose
header declares `byte_len`: a recoverable framing error, the `fill_words`
assertion firing (a panic), or proceeding to read the message. -/
inductive RecvCheck where
  | invalid : String → RecvCheck
  | assertFailed : RecvCheck
  | proceed : RecvCheck
deriving Repr, DecidableEq

/-- Length checks of `RecvHalf::poll_recv` followed by the `fill_words`
assertion on the full message. -/
def poll_recv_check (byte_len : Nat) : RecvCheck :=
  if byte_len < 8 then .invalid "message length must be larger than message header"
  else if byte_len % WORD_SIZE ≠ 0 then .invalid "message length must be a multiple of the word size"
  else if fill_words_assert (byte_len / WORD_SIZE) then .proceed
  else .assertFailed

/-! Lemmas about flushing and compaction. -/

theorem poll_flush_parts (net : List NetResult) (b : ByteBuffer) (f : FdBuffer) :
    (poll_flush net b f).2.1.buf = b.buf ∧
    (poll_flush net b f).2.1.write_idx = b.write_idx ∧
    b.read_idx ≤ (poll_flush net b f).2.1.read_idx ∧
    (poll_flush net b f).2.2.buf = f.buf ∧
    (poll_flush net b f).2.2.write_idx = f.write_idx ∧
    ((poll_flush net b f).2.2.read_idx = f.read_idx ∨
      (poll_flush net b f).2.2.read_idx = f.write_idx) := by
  induction net generalizing b f with
  | nil =>
    simp only [poll_flush]
    split
    · exact ⟨rfl, rfl, Nat.le_refl _, rfl, rfl, Or.inl rfl⟩
    · exact ⟨rfl, rfl, Nat.le_refl _, rfl, rfl, Or.inl rfl⟩
  | cons hd tl ih =>
    cases hd with
    | wouldBlock =>
      simp only [poll_flush]
      split
      · exact ⟨rfl, rfl, Nat.le_refl _, rfl, rfl, Or.inl rfl⟩
      · exact ⟨rfl, rfl, Nat.le_refl _, rfl, rfl, Or.inl rfl⟩
    | fail e =>
      simp only [poll_flush]
      split
      · exact ⟨rfl, rfl, Nat.le_refl _, rfl, rfl, Or.inl rfl⟩
      · exact ⟨rfl, rfl, Nat.le_refl _, rfl, rfl, Or.inl rfl⟩
    | sent n =>
      simp only [poll_flush]
      split
      · obtain ⟨h1, h2, h3, h4, h5, h6⟩ :=
          ih { b with read_idx := b.read_idx + n } { f with read_idx := f.write_idx }
        simp only at h1 h2 h3 h4 h5 h6
        refine ⟨h1, h2, by omega, h4, h5, ?_⟩
        rcases h6 with h6 | h6 <;> rw [h6] <;> simp
      · exact ⟨rfl, rfl, Nat.le_refl _, rfl, rfl, Or.inl rfl⟩

theorem poll_flush_read_le (net : List NetResult) (b : ByteBuffer) (f : FdBuffer)
    (hv : flushValid net b f) (h : b.read_idx ≤ b.write_idx) :
    (poll_flush net b f).2.1.read_idx ≤ b.write_idx := by
  induction net generalizing b f with
  | nil =>
    simp only [poll_flush]
    split
    · exact h
    · exact h
  | cons hd tl ih =>
    cases hd with
    | wouldBlock =>
      simp only [poll_flush]
      split
      · exact h
      · exact h
    | fail e =>
      simp only [poll_flush]
      split
      · exact h
      · exact h
    | sent n =>
      simp only [poll_flush]
      split
      · rename_i hcond
        obtain ⟨hn, hv2⟩ := hv hcond
        have := ih { b with read_idx := b.read_idx + n } { f with read_idx := f.write_idx }
          hv2 (by simp; omega)
        simpa using this
      · exact h

theorem poll_flush_retained_suffix (net : List NetResult) (b : ByteBuffer) (f : FdBuffer)
    (hfrw : f.read_idx ≤ f.write_idx) :
    (retainedBytes (poll_flush net b f).2.1).IsSuffix (retainedBytes b) ∧
    (retainedFds (poll_flush net b f).2.2).IsSuffix (retainedFds f) := by
  obtain ⟨h1, h2, h3, h4, h5, h6⟩ := poll_flush_parts net b f
  constructor
  · have heq : retainedBytes (poll_flush net b f).2.1 =
        (retainedBytes b).drop ((poll_flush net b f).2.1.read_idx - b.read_idx) := by
      unfold retainedBytes
      rw [h1, h2, List.drop_drop]
      congr 1
      omega
    rw [heq]
    exact List.drop_suffix _ _
  · have heq : retainedFds (poll_flush net b f).2.2 =
        (retainedFds f).drop ((poll_flush net b f).2.2.read_idx - f.read_idx) := by
      unfold retainedFds
      rw [h4, h5, List.drop_drop]
      congr 1
      rcases h6 with h6 | h6 <;> omega
    rw [heq]
    exact List.drop_suffix _ _

theorem bytesOfWords_append (l1 l2 : List Nat) :
    bytesOfWords (l1 ++ l2) = bytesOfWords l1 ++ bytesOfWords l2 := by
  induction l1 with
  | nil => rfl
  | cons w ws ih => simp [bytesOfWords, ih]

theorem bytesOfWords_length (l : List Nat) : (bytesOfWords l).length = 4 * l.length := by
  induction l with
  | nil => rfl
  | cons w ws ih => simp [bytesOfWords, bytesOfWord, ih]; omega

theorem bytesOfWords_take (l : List Nat) (n : Nat) :
    bytesOfWords (l.take n) = (bytesOfWords l).take (4 * n) := by
  induction l generalizing n with
  | nil => simp [bytesOfWords]
  | cons w ws ih =>
    cases n with
    | zero => simp [bytesOfWords]
    | succ m =>
      rw [show 4 * (m + 1) = 4 * m + 1 + 1 + 1 + 1 by omega]
      simp only [List.take_succ_cons, bytesOfWords, bytesOfWord, List.cons_append,
        List.nil_append, ih]

theorem bytesOfWords_drop (l : List Nat) (n : Nat) :
    bytesOfWords (l.drop n) = (bytesOfWords l).drop (4 * n) := by
  induction l generalizing n with
  | nil => simp [bytesOfWords]
  | cons w ws ih =>
    cases n with
    | zero => simp
    | succ m =>
      rw [show 4 * (m + 1) = 4 * m + 1 + 1 + 1 + 1 by omega]
      simp only [List.drop_succ_cons, bytesOfWords, bytesOfWord, List.cons_append,
        List.nil_append, ih]

theorem compactBytes_retained (b : ByteBuffer) (h1 : b.read_idx ≤ b.write_idx)
    (h2 : b.write_idx % 4 = 0) (h3 : b.write_idx ≤ 4 * b.buf.length) :
    retainedBytes (compactBytes b) = retainedBytes b := by
  have hws4 : b.read_idx / 4 * 4 ≤ b.read_idx := Nat.div_mul_le_self _ _
  have hwe4 : b.write_idx / 4 * 4 = b.write_idx := Nat.div_mul_cancel (Nat.dvd_of_mod_eq_zero h2)
  have hwswe : b.read_idx / 4 ≤ b.write_idx / 4 := Nat.div_le_div_right h1
  have hwelen : b.write_idx / 4 ≤ b.buf.length := by omega
  unfold compactBytes retainedBytes setRange listExtract
  simp only [WORD_SIZE, List.take_zero, List.nil_append, Nat.zero_add]
  have hxslen : ((b.buf.drop (b.read_idx / 4)).take (b.write_idx / 4 - b.read_idx / 4)).length
      = b.write_idx / 4 - b.read_idx / 4 := by
    rw [List.length_take, List.length_drop]
    omega
  rw [bytesOfWords_append]
  have hAlen : (bytesOfWords
      ((b.buf.drop (b.read_idx / 4)).take (b.write_idx / 4 - b.read_idx / 4))).length
      = b.write_idx - b.read_idx / 4 * 4 := by
    rw [bytesOfWords_length, hxslen]
    omega
  rw [List.take_left' hAlen]
  rw [bytesOfWords_take, bytesOfWords_drop, List.take_drop, List.drop_drop]
  rw [show 4 * (b.read_idx / 4) + (b.read_idx - b.read_idx / 4 * 4) = b.read_idx from by omega]
  rw [show 4 * (b.read_idx / 4) + 4 * (b.write_idx / 4 - b.read_idx / 4) = b.write_idx from by
    omega]

theorem compactFds_retained (f : FdBuffer) (h1 : f.read_idx ≤ f.write_idx)
    (h3 : f.write_idx ≤ f.buf.length) :
    retainedFds (compactFds f) = retainedFds f := by
  unfold compactFds retainedFds setRange listExtract
  simp only [List.take_zero, List.nil_append, Nat.zero_add, List.drop_zero]
  have hxslen : ((f.buf.drop f.read_idx).take (f.write_idx - f.read_idx)).length
      = f.write_idx - f.read_idx := by
    rw [List.length_take, List.length_drop]
    omega
  rw [List.take_left' hxslen]
  rw [List.take_drop]
  rw [show f.read_idx + (f.write_idx - f.read_idx) = f.write_idx from by omega]

/-- Case analysis of the flush-and-compact step: it either aborts with the
post-flush state after a transport error, or succeeds with the compacted
post-flush state, or (when the message already fit) leaves the state alone. -/
theorem submitFlushCompact_cases (net : List NetResult) (s : SendState) (blen fl : Nat)
    (r1 : PollFlushResult) (b1 : ByteBuffer) (f1 : FdBuffer)
    (hpf : poll_flush net s.bytes s.fds = (r1, b1, f1)) :
    (∃ e, r1 = .readyErr e ∧
      submitFlushCompact net s blen fl = .error (e, SendState.mk b1 f1)) ∨
    ((∀ e, r1 ≠ .readyErr e) ∧ submitFlushCompact net s blen fl =
      .ok (SendState.mk (compactBytes b1) (compactFds f1))) ∨
    (¬ (CAP_BYTES - s.bytes.write_idx < blen ∨ CAP_FDS - s.fds.write_idx < fl) ∧
      submitFlushCompact net s blen fl = .ok s) := by
  unfold submitFlushCompact
  split
  · rw [hpf]
    cases r1 with
    | readyOk => exact Or.inr (Or.inl ⟨fun e h => PollFlushResult.noConfusion h, rfl⟩)
    | pending => exact Or.inr (Or.inl ⟨fun e h => PollFlushResult.noConfusion h, rfl⟩)
    | readyErr e2 => exact Or.inl ⟨e2, rfl, rfl⟩
  · rename_i hc
    exact Or.inr (Or.inr ⟨hc, rfl⟩)

/-- C2. For a message that fits the buffer capacity: whenever the
flush-and-compact step completes without a transport error but still leaves
too little byte or fd room, `submit` returns an error (part 1, backpressure
instead of blocking); and whenever `submit` returns any error, the retained
queued bytes and the queued fds after the call are a suffix of those from
before the call — exactly the old queued data minus the prefix the flush
delivered, with nothing of the new message enqueued (part 2, atomicity). -/
theorem submit_backpressure_atomic (net : List NetResult) (b : ByteBuffer) (f : FdBuffer)
    (oid op al fl : Nat)
    (hblen : b.buf.length = CAP_WORDS) (hbrw : b.read_idx ≤ b.write_idx)
    (hbw : b.write_idx ≤ CAP_BYTES) (hba : b.write_idx % 4 = 0)
    (hflen : f.buf.length = CAP_FDS) (hfrw : f.read_idx ≤ f.write_idx)
    (hfw : f.write_idx ≤ CAP_FDS)
    (hv : flushValid net b f)
    (hfit : (al + 2) * WORD_SIZE ≤ CAP_BYTES) :
    (∀ r1 b1 f1, poll_flush net b f = (r1, b1, f1) → (∀ e, r1 ≠ .readyErr e) →
      (CAP_BYTES - b.write_idx < (al + 2) * WORD_SIZE ∨ CAP_FDS - f.write_idx < fl) →
      (CAP_BYTES - (compactBytes b1).write_idx < (al + 2) * WORD_SIZE ∨
        CAP_FDS - (compactFds f1).write_idx < fl) →
      ∃ e s2, submit net ⟨b, f⟩ oid op al fl = (.err e, s2)) ∧
    (∀ e s2, submit net ⟨b, f⟩ oid op al fl = (.err e, s2) →
      (retainedBytes s2.bytes).IsSuffix (retainedBytes b) ∧
      (retainedFds s2.fds).IsSuffix (retainedFds f)) := by
  constructor
  · intro r1 b1 f1 hpf hne hshort hstill
    rcases submitFlushCompact_cases net ⟨b, f⟩ ((al + 2) * WORD_SIZE) fl r1 b1 f1 hpf with
      ⟨e2, hr1, heq⟩ | ⟨hne2, heq⟩ | ⟨hnoshort, heq⟩
    · exact absurd hr1 (hne e2)
    · simp only [submit]
      rw [if_pos hfit]
      simp only [heq]
      by_cases hc1 : CAP_BYTES - (compactBytes b1).write_idx < (al + 2) * WORD_SIZE
      · rw [if_pos hc1]
        exact ⟨_, _, rfl⟩
      · have hc2 := hstill.resolve_left hc1
        rw [if_neg hc1, if_pos hc2]
        exact ⟨_, _, rfl⟩
    · exact absurd hshort hnoshort
  · intro e s2 hsub
    simp only [submit] at hsub
    rw [if_pos hfit] at hsub
    rcases hpf : poll_flush net b f with ⟨r1, b1, f1⟩
    have hp1 : b1.buf = b.buf := by
      have h := (poll_flush_parts net b f).1
      rw [hpf] at h
      exact h
    have hp2 : b1.write_idx = b.write_idx := by
      have h := (poll_flush_parts net b f).2.1
      rw [hpf] at h
      exact h
    have hp4 : f1.buf = f.buf := by
      have h := (poll_flush_parts net b f).2.2.2.1
      rw [hpf] at h
      exact h
    have hp5 : f1.write_idx = f.write_idx := by
      have h := (poll_flush_parts net b f).2.2.2.2.1
      rw [hpf] at h
      exact h
    have hp6 : f1.read_idx = f.read_idx ∨ f1.read_idx = f.write_idx := by
      have h := (poll_flush_parts net b f).2.2.2.2.2
      rw [hpf] at h
      exact h
    have hred : b1.read_idx ≤ b.write_idx := by
      have h := poll_flush_read_le net b f hv hbrw
      rw [hpf] at h
      exact h
    have hsb : (retainedBytes b1).IsSuffix (retainedBytes b) := by
      have h := (poll_flush_retained_suffix net b f hfrw).1
      rw [hpf] at h
      exact h
    have hsf : (retainedFds f1).IsSuffix (retainedFds f) := by
      have h := (poll_flush_retained_suffix net b f hfrw).2
      rw [hpf] at h
      exact h
    have hb1wf1 : b1.read_idx ≤ b1.write_idx := by omega
    have hb1wf2 : b1.write_idx % 4 = 0 := by omega
    have hb1wf3 : b1.write_idx ≤ 4 * b1.buf.length := by
      rw [hp1, hblen]
      have hcw : (4 : Nat) * CAP_WORDS = CAP_BYTES := by decide
      omega
    have hf1wf1 : f1.read_idx ≤ f1.write_idx := by
      rcases hp6 with h | h <;> omega
    have hf1wf2 : f1.write_idx ≤ f1.buf.length := by
      rw [hp4, hflen]
      omega
    have hcb := compactBytes_retained b1 hb1wf1 hb1wf2 hb1wf3
    have hcf := compactFds_retained f1 hf1wf1 hf1wf2
    rcases submitFlushCompact_cases net ⟨b, f⟩ ((al + 2) * WORD_SIZE) fl r1 b1 f1 hpf with
      ⟨e2, hr1, heq⟩ | ⟨hne2, heq⟩ | ⟨hnoshort, heq⟩
    · simp only [heq] at hsub
      have hs2 : SendState.mk b1 f1 = s2 := congrArg Prod.snd hsub
      subst hs2
      exact ⟨hsb, hsf⟩
    · simp only [heq] at hsub
      by_cases hc1 : CAP_BYTES - (compactBytes b1).write_idx < (al + 2) * WORD_SIZE
      · rw [if_pos hc1] at hsub
        have hs2 : SendState.mk (compactBytes b1) (compactFds f1) = s2 := congrArg Prod.snd hsub
        subst hs2
        refine ⟨?_, ?_⟩
        · show (retainedBytes (compactBytes b1)).IsSuffix (retainedBytes b)
          rw [hcb]
          exact hsb
        · show (retainedFds (compactFds f1)).IsSuffix (retainedFds f)
          rw [hcf]
          exact hsf
      · by_cases hc2 : CAP_FDS - (compactFds f1).write_idx < fl
        · rw [if_neg hc1, if_pos hc2] at hsub
          have hs2 : SendState.mk (compactBytes b1) (compactFds f1) = s2 := congrArg Prod.snd hsub
          subst hs2
          refine ⟨?_, ?_⟩
          · show (retainedBytes (compactBytes b1)).IsSuffix (retainedBytes b)
            rw [hcb]
            exact hsb
          · show (retainedFds (compactFds f1)).IsSuffix (retainedFds f)
            rw [hcf]
            exact hsf
        · rw [if_neg hc1, if_neg hc2] at hsub
          exact absurd (congrArg Prod.fst hsub) (by simp)
    · simp only [heq] at hsub
      rw [if_neg (fun h => hnoshort (Or.inl h)), if_neg (fun h => hnoshort (Or.inr h))] at hsub
      exact absurd (congrArg Prod.fst hsub) (by simp)

/-- Witness for C2 at a concrete full buffer: the byte buffer holds 4096
queued bytes, the oracle accepts nothing, so an 8-byte message is rejected. -/
theorem submit_backpressure_atomic_witness :
    ∃ e s2, submit [] ⟨⟨List.replicate CAP_WORDS 0, 0, 4096⟩, ⟨List.replicate CAP_FDS (-1), 0, 0⟩⟩
      1 0 0 0 = (.err e, s2) :=
  ((submit_backpressure_atomic [] ⟨List.replicate CAP_WORDS 0, 0, 4096⟩
      ⟨List.replicate CAP_FDS (-1), 0, 0⟩ 1 0 0 0
      (by rw [List.length_replicate]) (Nat.zero_le _) (by decide) (by decide)
      (by rw [List.length_replicate]) (Nat.zero_le _) (Nat.zero_le _) trivial (by decide)).1
    .pending ⟨List.replicate CAP_WORDS 0, 0, 4096⟩ ⟨List.replicate CAP_FDS (-1), 0, 0⟩
    (by simp only [poll_flush]; rw [if_pos (Or.inl (by decide))])
    (fun e h => PollFlushResult.noConfusion h)
    (Or.inl (by decide))
    (Or.inl (by decide)))

/-- C3 (code bug). Submitting `(object_id=3, opcode=1, args_len=1, fds_len=1)`
on empty buffers places the two header words at the old byte write index and
leaves both write indices untouched until `finish` (dropping the writer here
abandons the reservation, queued data intact); writing the arg word and the
fd then calling `finish` advances the byte write index by exactly
`(args_len + 2) * 4 = 12` bytes as claimed — but the fd write index lands on
`fds_goal * WORD_SIZE = 4` instead of the claimed `fds_len = 1` entries: the
source multiplies the entry-counted fd cursor by the word size. -/
theorem finish_fd_write_index_in_byte_units :
    (submit [] ⟨⟨[0, 0, 0, 0], 0, 0⟩, ⟨[-1, -1], 0, 0⟩⟩ 3 1 1 1 =
      (.ok 2 3 0 1, ⟨⟨[3, headerWord2 12 1, 0, 0], 0, 0⟩, ⟨[-1, -1], 0, 0⟩⟩)) ∧
    (msg_write_fds (msg_write_all
        ⟨⟨[3, headerWord2 12 1, 0, 0], 0, 0⟩, ⟨[-1, -1], 0, 0⟩⟩ 2 [42]) 0 [5] =
      ⟨⟨[3, headerWord2 12 1, 42, 0], 0, 0⟩, ⟨[5, -1], 0, 0⟩⟩) ∧
    (msg_finish ⟨⟨[3, headerWord2 12 1, 42, 0], 0, 0⟩, ⟨[5, -1], 0, 0⟩⟩ 3 1 =
      ⟨⟨[3, headerWord2 12 1, 42, 0], 0, 12⟩, ⟨[5, -1], 0, 4⟩⟩) ∧
    (4 : Nat) ≠ 1 := by
  exact ⟨rfl, rfl, rfl, by decide⟩

/-- C7. The second header word carries the total byte length (header
included) in bits 16..32 and the opcode in bits 0..16 on both send paths:
for in-range lengths `headerWord2 blen op` is `blen * 2^16 + op` with the
expected bit decomposition; the `wire_event!` macro's `(word_count << 18)`
coincides with `(byte_count << 16)`, making its second word exactly
`headerWord2` of the total byte length; and a successful `submit` stores
`[object_id, headerWord2 bytes_len opcode]` at the old write position. -/
theorem header_second_word (op : Nat) (hop : op < 2 ^ 16) :
    (∀ blen, blen < 2 ^ 16 →
      headerWord2 blen op = blen * 2 ^ 16 + op ∧
      headerWord2 blen op / 2 ^ 16 = blen ∧
      headerWord2 blen op % 2 ^ 16 = op) ∧
    (∀ (id : Nat) (args : List Nat),
      wire_event id op args = id :: headerWord2 ((args.length + 2) * 4) op :: args) ∧
    (∀ net s oid al fl wi wg fi fg s2,
      submit net s oid op al fl = (.ok wi wg fi fg, s2) →
      ∃ base : SendState,
        wi = base.bytes.write_idx / WORD_SIZE + 2 ∧
        s2 = SendState.mk
          { base.bytes with
            buf := setRange base.bytes.buf (base.bytes.write_idx / WORD_SIZE)
              [oid, headerWord2 ((al + 2) * WORD_SIZE) op] }
          base.fds) := by
  refine ⟨?_, ?_, ?_⟩
  · intro blen hb
    have h1 : blen % 2 ^ 32 = blen := Nat.mod_eq_of_lt (by omega)
    have h2 : blen * 2 ^ 16 % 2 ^ 32 = blen * 2 ^ 16 := Nat.mod_eq_of_lt (by
      have h3 := Nat.mul_lt_mul_of_lt_of_le hb (Nat.le_refl (2 ^ 16)) (by norm_num)
      calc blen * 2 ^ 16 < 2 ^ 16 * 2 ^ 16 := h3
        _ = 2 ^ 32 := by norm_num)
    have h3 : headerWord2 blen op = blen * 2 ^ 16 + op := by
      unfold headerWord2
      rw [h1, h2, mul_comm]
      rw [← Nat.mul_add_lt_is_or hop blen]
    refine ⟨h3, ?_, ?_⟩
    · rw [h3]
      omega
    · rw [h3]
      omega
  · intro id args
    have hlen : (id :: op :: args).length = args.length + 2 := by
      simp only [List.length_cons]
    unfold wire_event headerWord2
    rw [hlen, Nat.lor_comm]
    have hx : (args.length + 2) % 2 ^ 32 * 2 ^ 18 % 2 ^ 32
        = (args.length + 2) * 4 % 2 ^ 32 * 2 ^ 16 % 2 ^ 32 := by
      rw [Nat.mod_mul_mod, Nat.mod_mul_mod,
        show (args.length + 2) * 4 * 2 ^ 16 = (args.length + 2) * 2 ^ 18 from by ring]
    rw [hx]
  · intro net s oid al fl wi wg fi fg s2 hsub
    simp only [submit] at hsub
    by_cases hfit : (al + 2) * WORD_SIZE ≤ CAP_BYTES
    · rw [if_pos hfit] at hsub
      rcases hpf : poll_flush net s.bytes s.fds with ⟨r1, b1, f1⟩
      rcases submitFlushCompact_cases net s ((al + 2) * WORD_SIZE) fl r1 b1 f1 hpf with
        ⟨e2, hr1, heq⟩ | ⟨hne2, heq⟩ | ⟨hnoshort, heq⟩
      · simp only [heq] at hsub
        exact absurd (congrArg Prod.fst hsub) (by simp)
      · simp only [heq] at hsub
        by_cases hc1 : CAP_BYTES - (compactBytes b1).write_idx < (al + 2) * WORD_SIZE
        · rw [if_pos hc1] at hsub
          exact absurd (congrArg Prod.fst hsub) (by simp)
        · by_cases hc2 : CAP_FDS - (compactFds f1).write_idx < fl
          · rw [if_neg hc1, if_pos hc2] at hsub
            exact absurd (congrArg Prod.fst hsub) (by simp)
          · rw [if_neg hc1, if_neg hc2, Prod.mk.injEq] at hsub
            obtain ⟨hfst, hsnd⟩ := hsub
            injection hfst with hwi _ _ _
            exact ⟨SendState.mk (compactBytes b1) (compactFds f1), hwi.symm, hsnd.symm⟩
      · simp only [heq] at hsub
        by_cases hc1 : CAP_BYTES - s.bytes.write_idx < (al + 2) * WORD_SIZE
        · rw [if_pos hc1] at hsub
          exact absurd (congrArg Prod.fst hsub) (by simp)
        · by_cases hc2 : CAP_FDS - s.fds.write_idx < fl
          · rw [if_neg hc1, if_pos hc2] at hsub
            exact absurd (congrArg Prod.fst hsub) (by simp)
          · rw [if_neg hc1, if_neg hc2, Prod.mk.injEq] at hsub
            obtain ⟨hfst, hsnd⟩ := hsub
            injection hfst with hwi _ _ _
            exact ⟨s, hwi.symm, hsnd.symm⟩

    · rw [if_neg hfit] at hsub
      exact absurd (congrArg Prod.fst hsub) (by simp)

/-- Witness for C7 at opcode 1: the bit decomposition of `headerWord2 12 1`,
the `wire_event!` form for one arg, and the header placement of the concrete
submission used for C3. -/
theorem header_second_word_witness :
    (headerWord2 12 1 = 12 * 2 ^ 16 + 1 ∧ headerWord2 12 1 / 2 ^ 16 = 12 ∧
      headerWord2 12 1 % 2 ^ 16 = 1) ∧
    wire_event 5 1 [7] = 5 :: headerWord2 ((1 + 2) * 4) 1 :: [7] ∧
    (∃ base : SendState,
      2 = base.bytes.write_idx / WORD_SIZE + 2 ∧
      (⟨⟨[3, headerWord2 12 1, 0, 0], 0, 0⟩, ⟨[-1, -1], 0, 0⟩⟩ : SendState) = SendState.mk
        { base.bytes with
          buf := setRange base.bytes.buf (base.bytes.write_idx / WORD_SIZE)
            [3, headerWord2 ((1 + 2) * WORD_SIZE) 1] }
        base.fds) :=
  ⟨(header_second_word 1 (by decide)).1 12 (by decide),
   (header_second_word 1 (by decide)).2.1 5 [7],
   (header_second_word 1 (by decide)).2.2 [] ⟨⟨[0, 0, 0, 0], 0, 0⟩, ⟨[-1, -1], 0, 0⟩⟩
     3 1 1 2 3 0 1 ⟨⟨[3, headerWord2 12 1, 0, 0], 0, 0⟩, ⟨[-1, -1], 0, 0⟩⟩ rfl⟩

/-- C10. A message longer than the buffer capacity makes `submit` fire its
assertion (a panic, not a recoverable backpressure error); a message of
exactly `CAP_BYTES = 4096` bytes passes the send assertion and can be
submitted; but the receive path asserts strictly-below-capacity, so a
4096-byte message fires the `fill_words` assertion and every message that
proceeds is strictly smaller than 4096 bytes. -/
theorem capacity_boundary_asymmetry :
    (∀ net s oid op al fl, CAP_BYTES < (al + 2) * WORD_SIZE →
      submit net s oid op al fl = (.assertFailed, s)) ∧
    (submit [] ⟨⟨List.replicate CAP_WORDS 0, 0, 0⟩, ⟨List.replicate CAP_FDS (-1), 0, 0⟩⟩
        1 0 1022 0).1 = .ok 2 1024 0 0 ∧
    poll_recv_check 4096 = .assertFailed ∧
    (∀ blen, poll_recv_check blen = .proceed → blen < CAP_BYTES) := by
  refine ⟨?_, ?_, ?_, ?_⟩
  · intro net s oid op al fl h
    simp only [submit]
    rw [if_neg (by omega)]
  · rfl
  · rfl
  · intro blen h
    unfold poll_recv_check at h
    split at h
    · exact absurd h (by simp)
    · split at h
      · exact absurd h (by simp)
      · split at h
        · rename_i h1 h2 h3
          unfold fill_words_assert at h3
          rw [decide_eq_true_eq] at h3
          simp only [WORD_SIZE, CAP_BYTES] at h2 h3 ⊢
          omega
        · exact absurd h (by simp)

/-- Witness for C10: a 4100-byte submission (args_len 1023) panics on the
assertion, and the 2060-byte length proceeds on the receive path and is
below capacity. -/
theorem capacity_boundary_asymmetry_witness :
    submit [] ⟨⟨[0, 0, 0, 0], 0, 0⟩, ⟨[-1, -1], 0, 0⟩⟩ 1 0 1023 0 =
      (.assertFailed, ⟨⟨[0, 0, 0, 0], 0, 0⟩, ⟨[-1, -1], 0, 0⟩⟩) ∧
    (2060 : Nat) < CAP_BYTES :=
  ⟨capacity_boundary_asymmetry.1 [] _ 1 0 1023 0 (by decide),
   capacity_boundary_asymmetry.2.2.2 2060 rfl⟩

end Myway
